import Mathlib

/-!
Verification development for a C++ program that estimates π by trapezoidal
integration of f(x) = 4/(1+x²) over [0,1], split across worker threads.

The arithmetic of the program (C++ `double`) is modelled exactly over ℚ;
the loop and data-flow structure follows the source line by line:
  - `f`           embeds `double f(double x)`;
  - `integrate`   embeds `double integrate(int start, int end, int total_intervals)`,
                  a loop accumulating trapezoid terms for i = start, start+1, …, end-1;
  - `chunkStart`, `chunkEnd` embed the per-worker chunk bounds computed in
                  `calculatePi` (integer division `total_intervals / num_threads`);
  - `calculatePi` embeds the launch/join/aggregate pipeline: worker i stores
                  `integrate(start_i, end_i, total)` in slot i, then the slots
                  are summed in ascending index order;
  - `applyWrites`/`runSchedule` model the concurrent write phase explicitly:
                  writes are applied in an arbitrary schedule order, then the
                  slots are aggregated in ascending index order;
  - `mainBehavior` embeds the validation and exit-code logic of `main`.
-/

/-- Embeds `double f(double x) { return 4.0 / (1.0 + x * x); }`. -/
def f (x : ℚ) : ℚ := 4 / (1 + x * x)

/-- One trapezoid term of the loop body of `integrate`, at index `i`:
`(f(i*step) + f((i+1)*step)) * step / 2` with `step = 1/total_intervals`. -/
def trapTerm (total i : ℤ) : ℚ :=
  (f ((i : ℚ) * (1 / (total : ℚ))) + f (((i : ℚ) + 1) * (1 / (total : ℚ))))
    * (1 / (total : ℚ)) / 2

/-- The loop of `integrate`: `k` remaining iterations, current index `s`,
accumulator `sum`.  Each iteration adds the trapezoid term at the current
index, exactly as the C++ loop body does. -/
def integrateGo (total : ℤ) : ℤ → ℕ → ℚ → ℚ
  | _, 0, sum => sum
  | s, Nat.succ k, sum => integrateGo total (s + 1) k (sum + trapTerm total s)

/-- Embeds `double integrate(int start, int end, int total_intervals)`:
`sum = 0.0; step = 1.0/total; for (i = start; i < end; ++i) sum += …`.
The loop runs `(end - start).toNat` times (zero times when `end ≤ start`). -/
def integrate (start stop total : ℤ) : ℚ :=
  integrateGo total start (stop - start).toNat 0

/-- Worker `i`'s chunk start in `calculatePi`:
`start = i * intervals_per_thread` with
`intervals_per_thread = total_intervals / num_threads` (truncating division). -/
def chunkStart (total n i : ℕ) : ℕ := i * (total / n)

/-- Worker `i`'s chunk end in `calculatePi`:
`end = (i == num_threads - 1) ? total_intervals : (i + 1) * intervals_per_thread`. -/
def chunkEnd (total n i : ℕ) : ℕ :=
  if i = n - 1 then total else (i + 1) * (total / n)

/-- The common boundary sequence of the chunks: `chunkBound total n j` is the
start of worker `j`'s chunk for `j < n`, and `total` for `j = n`.  For `j < n`
it coincides with `chunkStart`, and `chunkBound total n (j+1)` coincides with
`chunkEnd total n j` (the last worker's end is `total`). -/
def chunkBound (total n j : ℕ) : ℕ :=
  if j = n then total else j * (total / n)

/-- Worker `i`'s partial result: `results[i] = integrate(start, end, total_intervals)`. -/
def workerResult (total n i : ℕ) : ℚ :=
  integrate (chunkStart total n i) (chunkEnd total n i) (total : ℤ)

/-- Embeds `calculatePi`: launch one worker per index `0 ≤ i < num_threads`,
each writing its own slot, join, then `pi += result` over the slots in
ascending index order (`for (double result : results) pi += result;`). -/
def calculatePi (total n : ℕ) : ℚ :=
  List.foldl (fun acc r => acc + r) 0 ((List.range n).map (workerResult total n))

/-- The write phase of `calculatePi` under an explicit completion schedule:
the workers listed in `sched` store their results into their own slots, in
the order given by the schedule.  Slots start at `0.0`
(`std::vector<double> results(num_threads, 0.0)`). -/
def applyWrites (total n : ℕ) : List ℕ → (ℕ → ℚ) → (ℕ → ℚ)
  | [], slots => slots
  | i :: rest, slots =>
      applyWrites total n rest (Function.update slots i (workerResult total n i))

/-- A full run of `calculatePi` whose workers complete in the order `sched`:
apply all writes, then aggregate the slots in ascending index order. -/
def runSchedule (total n : ℕ) (sched : List ℕ) : ℚ :=
  List.foldl (fun acc r => acc + r) 0
    ((List.range n).map (applyWrites total n sched (fun _ => 0)))

/-- Outcome of `main` on a given parsed thread-count input. -/
inductive MainOutcome where
  | rejected (msg : String) (code : ℕ)
  | completed (pi : ℚ) (code : ℕ)
  deriving DecidableEq

/-- The exact error message `main` writes to standard error on a bad count:
`std::cerr << "Liczba watkow musi byc w przedziale 1-50.\n";`. -/
def rejectMsg : String :=
  "Liczba watkow musi byc w przedziale 1-50.\n"

/-- Embeds the logic of `main` after `std::cin >> num_threads`: reject values
outside `[1, 50]` with the exact message on standard error and exit status 1;
otherwise run `calculatePi(100000000, num_threads)` and exit with status 0. -/
def mainBehavior (num_threads : ℤ) : MainOutcome :=
  if num_threads < 1 ∨ num_threads > 50 then
    MainOutcome.rejected rejectMsg 1
  else
    MainOutcome.completed (calculatePi 100000000 num_threads.toNat) 0

/-- Modelled from the spec: the trapezoid sum over `[start, end)` accumulated
in strictly increasing order of `i`, each term being
`(f(i·step) + f((i+1)·step))·step/2` with `step = 1/total_intervals` and
`f(x) = 4/(1+x²)`.  Written as a left fold over the increasing index list. -/
def specTrapSum (start stop total : ℤ) : ℚ :=
  List.foldl (fun acc i => acc + trapTerm total i) 0
    ((List.range (stop - start).toNat).map (fun k : ℕ => start + (k : ℤ)))

/- ### Basic lemmas about the integrate loop -/

lemma integrateGo_acc (total : ℤ) :
    ∀ (k : ℕ) (s : ℤ) (acc : ℚ),
      integrateGo total s k acc = acc + ∑ j in Finset.range k, trapTerm total (s + j) := by
  intro k
  induction k with
  | zero => intro s acc; simp [integrateGo]
  | succ k ih =>
      intro s acc
      simp only [integrateGo]
      rw [ih, Finset.sum_range_succ']
      have h1 : ∑ j in Finset.range k, trapTerm total (s + 1 + (j : ℤ))
          = ∑ j in Finset.range k, trapTerm total (s + ((j + 1 : ℕ) : ℤ)) := by
        apply Finset.sum_congr rfl
        intro j _
        congr 1
        push_cast
        ring
      rw [h1]
      have h0 : s + (((0 : ℕ) : ℤ)) = s := by push_cast; ring
      rw [h0]
      ring

lemma integrate_eq_sum (start stop total : ℤ) :
    integrate start stop total
      = ∑ j in Finset.range (stop - start).toNat, trapTerm total (start + j) := by
  rw [integrate, integrateGo_acc]
  simp

/- ### Fold / sum bridges -/

lemma foldl_add_map {α : Type} (g : α → ℚ) :
    ∀ (l : List α) (a : ℚ),
      List.foldl (fun acc x => acc + g x) a l = a + (l.map g).sum := by
  intro l
  induction l with
  | nil => intro a; simp
  | cons x xs ih =>
      intro a
      simp only [List.foldl_cons, List.map_cons, List.sum_cons, ih]
      ring

lemma listRange_map_sum (g : ℕ → ℚ) :
    ∀ (k : ℕ), ((List.range k).map g).sum = ∑ j in Finset.range k, g j := by
  intro k
  induction k with
  | zero => simp
  | succ k ih =>
      rw [List.range_succ, List.map_append, List.sum_append, Finset.sum_range_succ, ih]
      simp

lemma sum_range_add_q (g : ℕ → ℚ) (a b : ℕ) :
    ∑ j in Finset.range (a + b), g j
      = ∑ j in Finset.range a, g j + ∑ j in Finset.range b, g (a + j) := by
  induction b with
  | zero => simp
  | succ b ih =>
      have hab : a + (b + 1) = (a + b) + 1 := by ring
      rw [hab, Finset.sum_range_succ, ih, Finset.sum_range_succ]
      ring

lemma specTrapSum_eq_sum (start stop total : ℤ) :
    specTrapSum start stop total
      = ∑ j in Finset.range (stop - start).toNat, trapTerm total (start + j) := by
  rw [specTrapSum, foldl_add_map, zero_add]
  generalize (stop - start).toNat = K
  induction K with
  | zero => simp
  | succ k ih =>
      rw [List.range_succ, List.map_append, List.map_append, List.sum_append,
        Finset.sum_range_succ, ih]
      simp

/- ### Additivity of the trapezoid loop over adjacent ranges -/

lemma integrate_add (s m e total : ℤ) (h1 : s ≤ m) (h2 : m ≤ e) :
    integrate s m total + integrate m e total = integrate s e total := by
  rw [integrate_eq_sum, integrate_eq_sum, integrate_eq_sum]
  have hsplit : (e - s).toNat = (m - s).toNat + (e - m).toNat := by omega
  rw [hsplit, sum_range_add_q]
  congr 1
  apply Finset.sum_congr rfl
  intro j _
  have hms : (((m - s).toNat : ℤ)) = m - s := Int.toNat_of_nonneg (by omega)
  congr 1
  push_cast [hms]
  ring

lemma chain_le (c : ℕ → ℤ) :
    ∀ (k : ℕ), (∀ j, j < k → c j ≤ c (j + 1)) → c 0 ≤ c k := by
  intro k
  induction k with
  | zero => intro _; exact le_refl _
  | succ k ih =>
      intro h
      exact le_trans (ih fun j hj => h j (by omega)) (h k (by omega))

lemma integrate_chain (total : ℤ) (c : ℕ → ℤ) :
    ∀ (k : ℕ), (∀ j, j < k → c j ≤ c (j + 1)) →
      ∑ j in Finset.range k, integrate (c j) (c (j + 1)) total
        = integrate (c 0) (c k) total := by
  intro k
  induction k with
  | zero => intro _; simp [integrate_eq_sum]
  | succ k ih =>
      intro hmono
      rw [Finset.sum_range_succ, ih fun j hj => hmono j (by omega)]
      exact integrate_add _ _ _ _ (chain_le c k fun j hj => hmono j (by omega))
        (hmono k (by omega))

/-- C10: for every `total_intervals > 0` and all integer bounds with
`start ≥ end`, `integrate(start, end, total_intervals)` returns exactly `0`
(the loop body never executes), so every empty chunk contributes exactly `0`
to the aggregated value. -/
theorem integrate_empty_range (start stop total : ℤ)
    (h1 : 0 < total) (hse : stop ≤ start) : integrate start stop total = 0 := by
  rw [integrate_eq_sum]
  have hz : (stop - start).toNat = 0 := by omega
  rw [hz, Finset.sum_range_zero]

theorem integrate_empty_range_witness : integrate 5 3 7 = 0 :=
  integrate_empty_range 5 3 7 (by decide) (by decide)

/-- C1: for `0 ≤ start ≤ end ≤ total_intervals` and `total_intervals > 0`,
`integrate(start, end, total_intervals)` returns the trapezoid sum over
`[start, end)` accumulated in strictly increasing order of `i`, each term
being `(f(i·step) + f((i+1)·step))·step/2` with `step = 1/total_intervals`
and `f(x) = 4/(1+x²)` (arithmetic modelled exactly over ℚ). -/
theorem integrate_eq_specTrapSum (start stop total : ℤ)
    (h0 : 0 ≤ start) (h1 : start ≤ stop) (h2 : stop ≤ total) (h3 : 0 < total) :
    integrate start stop total = specTrapSum start stop total := by
  rw [integrate_eq_sum, specTrapSum_eq_sum]

theorem integrate_eq_specTrapSum_witness : integrate 0 2 2 = specTrapSum 0 2 2 :=
  integrate_eq_specTrapSum 0 2 2 (by decide) (by decide) (by decide) (by decide)

/- ### Chunk boundary lemmas -/

lemma chunkStart_eq_bound (total n i : ℕ) (h : i < n) :
    chunkStart total n i = chunkBound total n i := by
  rw [chunkStart, chunkBound, if_neg (by omega)]

lemma chunkEnd_eq_bound (total n i : ℕ) (h : i < n) :
    chunkEnd total n i = chunkBound total n (i + 1) := by
  rw [chunkEnd, chunkBound]
  by_cases hc : i = n - 1
  · rw [if_pos hc, if_pos (by omega)]
  · rw [if_neg hc, if_neg (by omega)]

lemma chunkBound_zero (total n : ℕ) (hn : 1 ≤ n) : chunkBound total n 0 = 0 := by
  rw [chunkBound, if_neg (by omega), Nat.zero_mul]

lemma chunkBound_last (total n : ℕ) : chunkBound total n n = total := by
  rw [chunkBound, if_pos rfl]

lemma chunkBound_mono_step (total n j : ℕ) (hj : j < n) :
    chunkBound total n j ≤ chunkBound total n (j + 1) := by
  rw [chunkBound, chunkBound, if_neg (by omega)]
  by_cases hc : j + 1 = n
  · rw [if_pos hc]
    calc j * (total / n) ≤ n * (total / n) := Nat.mul_le_mul_right _ (by omega)
      _ = total / n * n := Nat.mul_comm _ _
      _ ≤ total := Nat.div_mul_le_self _ _
  · rw [if_neg hc]
    exact Nat.mul_le_mul_right _ (by omega)

lemma chunkBound_chain (total n : ℕ) :
    ∀ (d a : ℕ), a + d ≤ n → chunkBound total n a ≤ chunkBound total n (a + d) := by
  intro d
  induction d with
  | zero => intro a _; exact le_refl _
  | succ d ih =>
      intro a h
      calc chunkBound total n a ≤ chunkBound total n (a + d) := ih a (by omega)
        _ ≤ chunkBound total n (a + d + 1) := chunkBound_mono_step total n (a + d) (by omega)

lemma chunkBound_le (total n a b : ℕ) (hab : a ≤ b) (hbn : b ≤ n) :
    chunkBound total n a ≤ chunkBound total n b := by
  have h := chunkBound_chain total n (b - a) a (by omega)
  rwa [show a + (b - a) = b from by omega] at h

lemma bound_telescope (total n : ℕ) :
    ∀ (k : ℕ), k ≤ n →
      ∑ i in Finset.range k, (chunkBound total n (i + 1) - chunkBound total n i)
        = chunkBound total n k - chunkBound total n 0 := by
  intro k
  induction k with
  | zero => intro _; simp
  | succ k ih =>
      intro hk
      rw [Finset.sum_range_succ, ih (by omega)]
      have h1 : chunkBound total n 0 ≤ chunkBound total n k :=
        chunkBound_le total n 0 k (by omega) (by omega)
      have h2 : chunkBound total n k ≤ chunkBound total n (k + 1) :=
        chunkBound_mono_step total n k (by omega)
      omega

lemma chunk_sizes_sum (total n : ℕ) (hn : 1 ≤ n) :
    ∑ i in Finset.range n, (chunkEnd total n i - chunkStart total n i) = total := by
  have hcongr :
      ∑ i in Finset.range n, (chunkEnd total n i - chunkStart total n i)
        = ∑ i in Finset.range n, (chunkBound total n (i + 1) - chunkBound total n i) := by
    apply Finset.sum_congr rfl
    intro i hi
    have hi' : i < n := Finset.mem_range.mp hi
    rw [chunkStart_eq_bound total n i hi', chunkEnd_eq_bound total n i hi']
  rw [hcongr, bound_telescope total n n (le_refl n), chunkBound_last,
    chunkBound_zero total n hn]
  omega

/- ### Existence and uniqueness of the covering chunk -/

lemma exists_bound (B : ℕ → ℕ) :
    ∀ (n x : ℕ), B 0 ≤ x → x < B n → ∃ i, i < n ∧ B i ≤ x ∧ x < B (i + 1) := by
  intro n
  induction n with
  | zero => intro x h0 hn; omega
  | succ n ih =>
      intro x h0 hn
      by_cases hB : B n ≤ x
      · exact ⟨n, by omega, hB, hn⟩
      · obtain ⟨i, hi, hx1, hx2⟩ := ih x h0 (by omega)
        exact ⟨i, by omega, hx1, hx2⟩

lemma bound_chain_le (B : ℕ → ℕ) (n : ℕ) (mono : ∀ j, j < n → B j ≤ B (j + 1)) :
    ∀ (d a : ℕ), a + d ≤ n → B a ≤ B (a + d) := by
  intro d
  induction d with
  | zero => intro a _; exact le_refl _
  | succ d ih =>
      intro a h
      calc B a ≤ B (a + d) := ih a (by omega)
        _ ≤ B (a + d + 1) := mono (a + d) (by omega)

lemma unique_bound (B : ℕ → ℕ) (n : ℕ) (mono : ∀ j, j < n → B j ≤ B (j + 1)) (x : ℕ) :
    ∀ i j, i < n → B i ≤ x → x < B (i + 1) → j < n → B j ≤ x → x < B (j + 1) → i = j := by
  intro i j hi hBi hxi hj hBj hxj
  by_contra hne
  rcases Nat.lt_or_ge i j with h | h
  · have hstep : B (i + 1) ≤ B j := by
      have hc := bound_chain_le B n mono (j - (i + 1)) (i + 1) (by omega)
      rwa [show i + 1 + (j - (i + 1)) = j from by omega] at hc
    omega
  · have hij : j + 1 ≤ i := by omega
    have hstep : B (j + 1) ≤ B i := by
      have hc := bound_chain_le B n mono (i - (j + 1)) (j + 1) (by omega)
      rwa [show j + 1 + (i - (j + 1)) = i from by omega] at hc
    omega

lemma exists_unique_bound (B : ℕ → ℕ) (n x : ℕ)
    (mono : ∀ j, j < n → B j ≤ B (j + 1)) (h0 : B 0 ≤ x) (hn : x < B n) :
    ∃! i, i < n ∧ B i ≤ x ∧ x < B (i + 1) := by
  obtain ⟨i, hi, hx1, hx2⟩ := exists_bound B n x h0 hn
  refine ⟨i, ⟨hi, hx1, hx2⟩, ?_⟩
  intro j hj
  obtain ⟨hjn, hj1, hj2⟩ := hj
  exact unique_bound B n mono x j i hjn hj1 hj2 hi hx1 hx2

/-- C2: for `total_intervals > 0` and `num_threads ∈ [1, total_intervals]`,
the chunks computed by `calculatePi` start at 0, end at `total_intervals`,
are contiguous (each chunk's end is the next chunk's start), have
non-negative length, cover `[0, total_intervals)` exactly (every index lies
in exactly one chunk), and their sizes sum to `total_intervals`. -/
theorem chunks_partition (total n : ℕ) (h1 : 0 < total) (h2 : 1 ≤ n) (h3 : n ≤ total) :
    chunkStart total n 0 = 0
    ∧ chunkEnd total n (n - 1) = total
    ∧ (∀ i, i + 1 < n → chunkEnd total n i = chunkStart total n (i + 1))
    ∧ (∀ i, i < n → chunkStart total n i ≤ chunkEnd total n i)
    ∧ (∀ x, x < total → ∃! i, i < n ∧ chunkStart total n i ≤ x ∧ x < chunkEnd total n i)
    ∧ ∑ i in Finset.range n, (chunkEnd total n i - chunkStart total n i) = total := by
  refine ⟨?_, ?_, ?_, ?_, ?_, chunk_sizes_sum total n h2⟩
  · rw [chunkStart, Nat.zero_mul]
  · rw [chunkEnd, if_pos rfl]
  · intro i hi
    rw [chunkEnd_eq_bound total n i (by omega), chunkStart_eq_bound total n (i + 1) (by omega)]
  · intro i hi
    rw [chunkStart_eq_bound total n i hi, chunkEnd_eq_bound total n i hi]
    exact chunkBound_mono_step total n i hi
  · intro x hx
    have hmono : ∀ j, j < n → chunkBound total n j ≤ chunkBound total n (j + 1) :=
      fun j hj => chunkBound_mono_step total n j hj
    have hb0 : chunkBound total n 0 ≤ x := by rw [chunkBound_zero total n h2]; omega
    have hbn : x < chunkBound total n n := by rw [chunkBound_last]; exact hx
    obtain ⟨i, ⟨hi, hx1, hx2⟩, huniq⟩ :=
      exists_unique_bound (chunkBound total n) n x hmono hb0 hbn
    refine ⟨i, ⟨hi, ?_, ?_⟩, ?_⟩
    · rw [chunkStart_eq_bound total n i hi]; exact hx1
    · rw [chunkEnd_eq_bound total n i hi]; exact hx2
    · intro j hj
      obtain ⟨hjn, hj1, hj2⟩ := hj
      apply huniq
      refine ⟨hjn, ?_, ?_⟩
      · rw [← chunkStart_eq_bound total n j hjn]; exact hj1
      · rw [← chunkEnd_eq_bound total n j hjn]; exact hj2

theorem chunks_partition_witness :
    chunkStart 10 3 0 = 0
    ∧ chunkEnd 10 3 (3 - 1) = 10
    ∧ (∀ i, i + 1 < 3 → chunkEnd 10 3 i = chunkStart 10 3 (i + 1))
    ∧ (∀ i, i < 3 → chunkStart 10 3 i ≤ chunkEnd 10 3 i)
    ∧ (∀ x, x < 10 → ∃! i, i < 3 ∧ chunkStart 10 3 i ≤ x ∧ x < chunkEnd 10 3 i)
    ∧ ∑ i in Finset.range 3, (chunkEnd 10 3 i - chunkStart 10 3 i) = 10 :=
  chunks_partition 10 3 (by decide) (by decide) (by decide)

/-- C9: for every `total_intervals ≥ 0` (ℕ) and `num_threads ≥ 1`, every
worker's chunk satisfies `start ≤ end`, the chunk sizes still sum to
`total_intervals`, and when `total_intervals < num_threads` the quotient
`intervals_per_thread` is 0, every non-final worker receives the empty chunk
`[0, 0)`, and the final worker receives `[0, total_intervals)`. -/
theorem chunk_bounds_nonneg (total n : ℕ) (hn : 1 ≤ n) :
    (∀ i, i < n → chunkStart total n i ≤ chunkEnd total n i)
    ∧ ∑ i in Finset.range n, (chunkEnd total n i - chunkStart total n i) = total
    ∧ (total < n →
        total / n = 0
        ∧ (∀ i, i < n - 1 → chunkStart total n i = 0 ∧ chunkEnd total n i = 0)
        ∧ chunkStart total n (n - 1) = 0
        ∧ chunkEnd total n (n - 1) = total) := by
  refine ⟨?_, chunk_sizes_sum total n hn, ?_⟩
  · intro i hi
    rw [chunkStart_eq_bound total n i hi, chunkEnd_eq_bound total n i hi]
    exact chunkBound_mono_step total n i hi
  · intro htn
    have hq : total / n = 0 := Nat.div_eq_of_lt htn
    refine ⟨hq, ?_, ?_, ?_⟩
    · intro i hi
      constructor
      · rw [chunkStart, hq, Nat.mul_zero]
      · rw [chunkEnd, if_neg (by omega), hq, Nat.mul_zero]
    · rw [chunkStart, hq, Nat.mul_zero]
    · rw [chunkEnd, if_pos rfl]

theorem chunk_bounds_nonneg_witness :
    (∀ i, i < 5 → chunkStart 3 5 i ≤ chunkEnd 3 5 i)
    ∧ ∑ i in Finset.range 5, (chunkEnd 3 5 i - chunkStart 3 5 i) = 3
    ∧ (3 < 5 →
        3 / 5 = 0
        ∧ (∀ i, i < 5 - 1 → chunkStart 3 5 i = 0 ∧ chunkEnd 3 5 i = 0)
        ∧ chunkStart 3 5 (5 - 1) = 0
        ∧ chunkEnd 3 5 (5 - 1) = 3) :=
  chunk_bounds_nonneg 3 5 (by decide)

/- ### Aggregation of the worker results -/

lemma foldl_add_id :
    ∀ (l : List ℚ) (a : ℚ), List.foldl (fun acc r => acc + r) a l = a + l.sum := by
  intro l
  induction l with
  | nil => intro a; simp
  | cons x xs ih =>
      intro a
      simp only [List.foldl_cons, List.sum_cons, ih]
      ring

lemma calculatePi_eq_finsum (total n : ℕ) :
    calculatePi total n = ∑ i in Finset.range n, workerResult total n i := by
  rw [calculatePi, foldl_add_id, zero_add, listRange_map_sum]

lemma workerResult_eq_chain (total n i : ℕ) (hi : i < n) :
    workerResult total n i
      = integrate ((chunkBound total n i : ℤ)) ((chunkBound total n (i + 1) : ℤ)) (total : ℤ) := by
  rw [workerResult, chunkStart_eq_bound total n i hi, chunkEnd_eq_bound total n i hi]

lemma chain_sum_eq (total n : ℕ) :
    ∑ i in Finset.range n,
        integrate ((chunkBound total n i : ℤ)) ((chunkBound total n (i + 1) : ℤ)) (total : ℤ)
      = integrate ((chunkBound total n 0 : ℤ)) ((chunkBound total n n : ℤ)) (total : ℤ) :=
  integrate_chain (total : ℤ) (fun j => ((chunkBound total n j : ℤ))) n
    (fun j hj => by
      show ((chunkBound total n j : ℤ)) ≤ ((chunkBound total n (j + 1) : ℤ))
      exact_mod_cast chunkBound_mono_step total n j hj)

lemma calculatePi_eq_integrate (total n : ℕ) (hn : 1 ≤ n) :
    calculatePi total n = integrate 0 (total : ℤ) (total : ℤ) := by
  rw [calculatePi_eq_finsum]
  have hcongr : ∑ i in Finset.range n, workerResult total n i
      = ∑ i in Finset.range n,
          integrate ((chunkBound total n i : ℤ)) ((chunkBound total n (i + 1) : ℤ)) (total : ℤ) := by
    apply Finset.sum_congr rfl
    intro i hi
    exact workerResult_eq_chain total n i (Finset.mem_range.mp hi)
  rw [hcongr, chain_sum_eq total n, chunkBound_zero total n hn, chunkBound_last]
  simp

/-- C3: for `total_intervals > 0` and `num_threads ∈ [1, 50]`, the final `pi`
value of `calculatePi` is the left fold, in ascending worker-index order
(worker 0 first, worker `num_threads - 1` last), of the per-worker partial
results, and hence equals their sum. -/
theorem calculatePi_aggregates_in_order (total n : ℕ)
    (htot : 0 < total) (h1 : 1 ≤ n) (h2 : n ≤ 50) :
    calculatePi total n
      = List.foldl (fun acc r => acc + r) 0
          ((List.range n).map
            (fun i => integrate ((chunkStart total n i : ℤ)) ((chunkEnd total n i : ℤ)) (total : ℤ)))
    ∧ calculatePi total n = ∑ i in Finset.range n, workerResult total n i := by
  exact ⟨rfl, calculatePi_eq_finsum total n⟩

theorem calculatePi_aggregates_in_order_witness :
    calculatePi 4 2
      = List.foldl (fun acc r => acc + r) 0
          ((List.range 2).map
            (fun i => integrate ((chunkStart 4 2 i : ℤ)) ((chunkEnd 4 2 i : ℤ)) ((4 : ℕ) : ℤ)))
    ∧ calculatePi 4 2 = ∑ i in Finset.range 2, workerResult 4 2 i :=
  calculatePi_aggregates_in_order 4 2 (by decide) (by decide) (by decide)

/-- C5: for fixed `total_intervals > 0`, `calculatePi` returns the same value
for every valid `num_threads` in `[1, 50]` (arithmetic modelled exactly over
ℚ, where the re-associated partial sums coincide); in particular
`num_threads = 1` and `num_threads = 50` agree. -/
theorem calculatePi_thread_count_invariant (total n m : ℕ)
    (htot : 0 < total) (hn1 : 1 ≤ n) (hn2 : n ≤ 50) (hm1 : 1 ≤ m) (hm2 : m ≤ 50) :
    calculatePi total n = calculatePi total m := by
  rw [calculatePi_eq_integrate total n hn1, calculatePi_eq_integrate total m hm1]

theorem calculatePi_thread_count_invariant_witness : calculatePi 4 1 = calculatePi 4 50 :=
  calculatePi_thread_count_invariant 4 1 50 (by decide) (by decide) (by decide)
    (by decide) (by decide)

/-- C6: for `total_intervals > 0` and any partition of `[0, total_intervals)`
into contiguous half-open chunks given by boundaries `c 0 = 0 ≤ c 1 ≤ … ≤ c k
= total_intervals`, the single-chunk value `integrate(0, total, total)` equals
the sum of `integrate(c j, c (j+1), total)` over the chunks. -/
theorem integrate_partition_sum (total : ℤ) (k : ℕ) (c : ℕ → ℤ)
    (htot : 0 < total) (hc0 : c 0 = 0) (hck : c k = total)
    (hmono : ∀ j, j < k → c j ≤ c (j + 1)) :
    integrate 0 total total = ∑ j in Finset.range k, integrate (c j) (c (j + 1)) total := by
  rw [integrate_chain total c k hmono, hc0, hck]

theorem integrate_partition_sum_witness :
    integrate 0 3 3 = ∑ j in Finset.range 2,
      integrate ((fun j : ℕ => if j = 0 then (0 : ℤ) else if j = 1 then 1 else 3) j)
        ((fun j : ℕ => if j = 0 then (0 : ℤ) else if j = 1 then 1 else 3) (j + 1)) 3 :=
  integrate_partition_sum 3 2 (fun j : ℕ => if j = 0 then (0 : ℤ) else if j = 1 then 1 else 3)
    (by decide) (by decide) (by decide) (by decide)

/- ### Schedule independence of the write phase -/

lemma applyWrites_lookup (total n : ℕ) :
    ∀ (sched : List ℕ) (slots : ℕ → ℚ) (j : ℕ),
      (j ∈ sched → applyWrites total n sched slots j = workerResult total n j)
      ∧ (j ∉ sched → applyWrites total n sched slots j = slots j) := by
  intro sched
  induction sched with
  | nil =>
      intro slots j
      constructor
      · intro h; exact absurd h (List.not_mem_nil j)
      · intro _; rfl
  | cons i rest ih =>
      intro slots j
      constructor
      · intro hmem
        by_cases hjr : j ∈ rest
        · exact (ih _ j).1 hjr
        · have hji : j = i := by
            rcases List.mem_cons.mp hmem with h | h
            · exact h
            · exact absurd h hjr
          simp only [applyWrites]
          rw [(ih _ j).2 hjr, hji, Function.update_same]
      · intro hnm
        have hji : j ≠ i := fun h => hnm (by rw [h]; exact List.mem_cons_self i rest)
        have hjr : j ∉ rest := fun h => hnm (List.mem_cons_of_mem i h)
        simp only [applyWrites]
        rw [(ih _ j).2 hjr, Function.update_noteq hji]

lemma runSchedule_eq_calculatePi (total n : ℕ) (sched : List ℕ)
    (hperm : sched.Perm (List.range n)) :
    runSchedule total n sched = calculatePi total n := by
  rw [runSchedule, calculatePi]
  congr 1
  apply List.map_congr_left
  intro i hi
  have hmem : i ∈ sched := hperm.mem_iff.mpr hi
  exact (applyWrites_lookup total n sched (fun _ => 0) i).1 hmem

/-- C8: for fixed `total_intervals` and `num_threads`, any two runs whose
workers complete in arbitrary orders (any two permutations of the worker
indices) produce the same `pi` value, equal to the join-then-aggregate value
of `calculatePi`: each worker writes only its own slot exactly once, and
aggregation proceeds in ascending worker index after all writes. -/
theorem runs_deterministic (total n : ℕ) (s1 s2 : List ℕ)
    (h1 : s1.Perm (List.range n)) (h2 : s2.Perm (List.range n)) :
    runSchedule total n s1 = runSchedule total n s2
    ∧ runSchedule total n s1 = calculatePi total n := by
  refine ⟨?_, runSchedule_eq_calculatePi total n s1 h1⟩
  rw [runSchedule_eq_calculatePi total n s1 h1, runSchedule_eq_calculatePi total n s2 h2]

theorem runs_deterministic_witness :
    runSchedule 4 2 [1, 0] = runSchedule 4 2 [0, 1]
    ∧ runSchedule 4 2 [1, 0] = calculatePi 4 2 :=
  runs_deterministic 4 2 [1, 0] [0, 1] (by decide) (by decide)

/-- C4: the program reads one integer; a value `< 1` or `> 50` is rejected
with exactly the message `Liczba watkow musi byc w przedziale 1-50.\n` on
standard error and exit status 1, and any value in `[1, 50]` runs the
computation with `total_intervals = 100000000` and exits with status 0. -/
theorem main_validation (v : ℤ) :
    (v < 1 ∨ 50 < v → mainBehavior v = MainOutcome.rejected rejectMsg 1)
    ∧ (1 ≤ v → v ≤ 50 →
        mainBehavior v = MainOutcome.completed (calculatePi 100000000 v.toNat) 0) := by
  constructor
  · intro h
    rw [mainBehavior, if_pos h]
  · intro h1 h2
    rw [mainBehavior, if_neg (by omega)]

theorem main_validation_witness :
    mainBehavior 0 = MainOutcome.rejected rejectMsg 1
    ∧ mainBehavior 51 = MainOutcome.rejected rejectMsg 1
    ∧ mainBehavior 4 = MainOutcome.completed (calculatePi 100000000 (Int.toNat 4)) 0 :=
  ⟨(main_validation 0).1 (by decide), (main_validation 51).1 (by decide),
    (main_validation 4).2 (by decide) (by decide)⟩
